import Mathlib

/-!
Shallow embedding of the task-list logic of `src/src/App.tsx` (a React
to-do application) together with proofs of the specification claims.

The embedding follows the source:
  * `Todo` mirrors the `Todo` type (integer `id`, string `title`,
    boolean `completed`).
  * The event handlers (`handleAddTodo`, `handleToggle`, `handleDelete`,
    `handleEditSubmit`, `handleClearCompleted`, `handleMarkAll`) become
    pure functions on the task list / component state; the impure inputs
    (`Date.now()`, the text of the input element, the checkbox state)
    become explicit parameters.
  * `localStorage` becomes an explicit `Option String` (absent key or
    stored string); `JSON.parse` / `JSON.stringify` are modelled by an
    executable JSON parser and printer over a `Json` value type whose
    numbers are integers (the only numbers the store ever writes are the
    integer ids produced by `Date.now()`).
  * JavaScript's `String.prototype.trim` is modelled by `jsTrim`, which
    strips leading and trailing whitespace characters.
-/

namespace TodoApp

/-- Whitespace as recognised by JavaScript's `trim` (the characters that
matter here: space, tab, line feed, carriage return, vertical tab, form
feed, no-break space, BOM). -/
def jsWhitespace (c : Char) : Bool :=
  c == ' ' || c == '\t' || c == '\n' || c == '\r' ||
  c.toNat == 11 || c.toNat == 12 || c.toNat == 0xA0 || c.toNat == 0xFEFF

/-- Strip leading and trailing whitespace from a list of characters. -/
def trimChars (l : List Char) : List Char :=
  ((l.dropWhile jsWhitespace).reverse.dropWhile jsWhitespace).reverse

/-- Model of JavaScript's `String.prototype.trim`. -/
def jsTrim (s : String) : String :=
  ⟨trimChars s.data⟩

/-- The `Todo` record type of the source (`id: number; title: string;
completed: boolean`); ids are integers (`Date.now()` values). -/
structure Todo where
  id : Int
  title : String
  completed : Bool
deriving DecidableEq, Repr

/-- The view filter type `Filter = 'All' | 'Active' | 'Completed'`. -/
inductive Filter where
  | All
  | Active
  | Completed
deriving DecidableEq, Repr

/-- `handleAddTodo`: trims the input element's text; when the trimmed
value is non-empty (JS truthiness of a string) appends a new todo with
`id = Date.now()` (the `now` parameter), the trimmed title and
`completed = false`. -/
def handleAddTodo (now : Int) (todos : List Todo) (input : String) : List Todo :=
  let value := jsTrim input
  if value = "" then todos
  else todos ++ [{ id := now, title := value, completed := false }]

/-- A sequence of add events, each with its `Date.now()` value and the
text in the input element. -/
def addAll (todos : List Todo) (ops : List (Int × String)) : List Todo :=
  ops.foldl (fun l p => handleAddTodo p.1 l p.2) todos

/-- `handleToggle`: flips `completed` on the todo whose id matches. -/
def handleToggle (todos : List Todo) (id : Int) : List Todo :=
  todos.map (fun t => if t.id = id then { t with completed := !t.completed } else t)

/-- `handleDelete`: removes the todo whose id matches. -/
def handleDelete (todos : List Todo) (id : Int) : List Todo :=
  todos.filter (fun t => t.id ≠ id)

/-- The task-list effect of `handleEditSubmit`: trims the draft; if the
trimmed draft is non-empty, replaces the matching todo's title with it,
otherwise deletes the todo (the source calls `handleDelete`). -/
def commitTodos (todos : List Todo) (id : Int) (draft : String) : List Todo :=
  let val := jsTrim draft
  if val = "" then handleDelete todos id
  else todos.map (fun t => if t.id = id then { t with title := val } else t)

/-- `handleClearCompleted`: keeps only the incomplete todos. -/
def handleClearCompleted (todos : List Todo) : List Todo :=
  todos.filter (fun t => !t.completed)

/-- `handleMarkAll`: sets `completed` on every todo to the checkbox
state `v`. -/
def handleMarkAll (todos : List Todo) (v : Bool) : List Todo :=
  todos.map (fun t => { t with completed := v })

/-- `filteredTodos`: the source's nested conditional
`filter === 'All' ? true : filter === 'Active' ? !todo.completed : todo.completed`
applied as a `filter` predicate over the backing list. -/
def filteredTodos (f : Filter) (todos : List Todo) : List Todo :=
  todos.filter (fun todo =>
    if f = Filter.All then true
    else if f = Filter.Active then !todo.completed
    else todo.completed)

/-- `activeCount`: number of todos with `completed = false`. -/
def activeCount (todos : List Todo) : Nat :=
  (todos.filter (fun t => !t.completed)).length

/-- `completedCount`: number of todos with `completed = true`. -/
def completedCount (todos : List Todo) : Nat :=
  (todos.filter (fun t => t.completed)).length

/-- The component state relevant to editing: the task list, the id being
edited (`editingId`) and the draft text (`editValue`). -/
structure StoreState where
  todos : List Todo
  editingId : Option Int
  editValue : String
deriving DecidableEq, Repr

/-- `handleEditSubmit`: trims `editValue`; non-empty ⟹ retitle the
matching todo, empty ⟹ delete it; then unconditionally clears
`editingId` and `editValue`. -/
def handleEditSubmit (s : StoreState) (id : Int) : StoreState :=
  let val := jsTrim s.editValue
  let todos' :=
    if val = "" then handleDelete s.todos id
    else s.todos.map (fun t => if t.id = id then { t with title := val } else t)
  { todos := todos', editingId := none, editValue := "" }

/-- The `toggle-all` checkbox as rendered: the `main` section (and with
it the checkbox) exists only when the list is non-empty; when rendered,
its checked state is `activeCount === 0`. -/
def renderedToggleAll (todos : List Todo) : Option Bool :=
  if 0 < todos.length then some (activeCount todos == 0) else none

/-- Task lists reachable from the empty list by the store's mutating
operations (the component starts from `[]` when storage is fresh, and
every mutation goes through one of these handlers). -/
inductive Reached : List Todo → Prop where
  | init : Reached []
  | add (now : Int) (input : String) {l : List Todo} :
      Reached l → Reached (handleAddTodo now l input)
  | toggle (id : Int) {l : List Todo} :
      Reached l → Reached (handleToggle l id)
  | del (id : Int) {l : List Todo} :
      Reached l → Reached (handleDelete l id)
  | commit (id : Int) (draft : String) {l : List Todo} :
      Reached l → Reached (commitTodos l id draft)
  | clear {l : List Todo} :
      Reached l → Reached (handleClearCompleted l)
  | mark (v : Bool) {l : List Todo} :
      Reached l → Reached (handleMarkAll l v)

/-! ## JSON model

`JSON.stringify` / `JSON.parse` over a value type whose numbers are
integers: the only numbers the store ever writes are the integer ids
produced by `Date.now()`, and the parser rejects fraction/exponent parts
(a modelling restriction recorded at `numGuard`). -/

/-- JSON values.  `num` carries an integer (see the module comment). -/
inductive Json where
  | null
  | bool (b : Bool)
  | num (n : Int)
  | str (s : String)
  | arr (elems : List Json)
  | obj (members : List (String × Json))
deriving Repr

/-- `true` exactly on JSON arrays. -/
def Json.isArr : Json → Bool
  | .arr _ => true
  | _ => false

/-- Lower-case hexadecimal digit, as `JSON.stringify` uses in `\u00xx`
escapes. -/
def hexDigitChar (n : Nat) : Char :=
  Char.ofNat (if n < 10 then 48 + n else 87 + n)

/-- How `JSON.stringify` renders one character inside a string literal:
quote and backslash get two-character escapes, the named control
characters get `\b \t \n \f \r`, the remaining control characters get
`\u00xx`, and everything else is copied verbatim. -/
def escapeChar (c : Char) : List Char :=
  if c = '"' then ['\\', '"']
  else if c = '\\' then ['\\', '\\']
  else if c.toNat = 8 then ['\\', 'b']
  else if c.toNat = 9 then ['\\', 't']
  else if c.toNat = 10 then ['\\', 'n']
  else if c.toNat = 12 then ['\\', 'f']
  else if c.toNat = 13 then ['\\', 'r']
  else if c.toNat < 32 then
    ['\\', 'u', '0', '0', hexDigitChar (c.toNat / 16), hexDigitChar (c.toNat % 16)]
  else [c]

/-- Escape every character of a string body. -/
def escChars : List Char → List Char
  | [] => []
  | c :: cs => escapeChar c ++ escChars cs

/-- A JSON string literal: quotes around the escaped body. -/
def quoteChars (s : String) : List Char :=
  '"' :: (escChars s.data ++ ['"'])

/-- The decimal digit character for `n < 10`. -/
def digitChar (n : Nat) : Char := Char.ofNat (48 + n)

/-- Decimal digits of a natural number, most significant first; the
first argument is recursion fuel (any `fuel > n` gives the digits). -/
def natDigitsAux : Nat → Nat → List Char
  | 0, _ => []
  | fuel + 1, n =>
    if n < 10 then [digitChar n]
    else natDigitsAux fuel (n / 10) ++ [digitChar (n % 10)]

/-- Decimal digits of a natural number, most significant first. -/
def natDigits (n : Nat) : List Char := natDigitsAux (n + 1) n

/-- How `JSON.stringify` renders an integer. -/
def intChars (i : Int) : List Char :=
  if i < 0 then '-' :: natDigits i.natAbs else natDigits i.natAbs

/-- `true` / `false` literals. -/
def boolChars (b : Bool) : List Char :=
  if b then ['t', 'r', 'u', 'e'] else ['f', 'a', 'l', 's', 'e']

/-- `JSON.stringify` of one todo: a compact object literal whose keys
appear in the declaration order of the record, `id`, `title`,
`completed`. -/
def encodeTodoChars (t : Todo) : List Char :=
  '{' :: (('"' :: 'i' :: 'd' :: '"' :: ':' :: intChars t.id)
    ++ (',' :: '"' :: 't' :: 'i' :: 't' :: 'l' :: 'e' :: '"' :: ':' :: quoteChars t.title)
    ++ (',' :: '"' :: 'c' :: 'o' :: 'm' :: 'p' :: 'l' :: 'e' :: 't' :: 'e' :: 'd' :: '"' :: ':' :: boolChars t.completed)
    ++ ['}'])

/-- Comma-separated rendering of the array elements. -/
def encodeElemsChars : List Todo → List Char
  | [] => []
  | [t] => encodeTodoChars t
  | t :: ts => encodeTodoChars t ++ ',' :: encodeElemsChars ts

/-- `JSON.stringify(todos)`: brackets around the elements. -/
def saveChars (todos : List Todo) : List Char :=
  '[' :: (encodeElemsChars todos ++ [']'])

/-- `saveTodos`: the string written to `localStorage`. -/
def saveTodos (todos : List Todo) : String := ⟨saveChars todos⟩

/-- Whitespace as skipped between JSON tokens by `JSON.parse`. -/
def jsonWs (c : Char) : Bool :=
  c == ' ' || c == '\t' || c == '\n' || c == '\r'

/-- Skip inter-token whitespace. -/
def skipWs (cs : List Char) : List Char := cs.dropWhile jsonWs

/-- Value of a hexadecimal digit character. -/
def hexVal (c : Char) : Option Nat :=
  if '0' ≤ c ∧ c ≤ '9' then some (c.toNat - 48)
  else if 'a' ≤ c ∧ c ≤ 'f' then some (c.toNat - 87)
  else if 'A' ≤ c ∧ c ≤ 'F' then some (c.toNat - 55)
  else none

/-- Read the body of a JSON string literal after the opening quote,
returning the decoded characters and the input after the closing quote.
The first argument is recursion fuel (the input length plus one always
suffices, as every step consumes at least one character).  `\uXXXX`
escapes are decoded, pairing surrogates; a lone surrogate — which a
JavaScript string could hold but a Lean `String` cannot — becomes
U+FFFD. -/
def readStrAux : Nat → List Char → Option (List Char × List Char)
  | 0, _ => none
  | _ + 1, [] => none
  | fuel + 1, c :: cs =>
    if c = '"' then some ([], cs)
    else if c = '\\' then
      match cs with
      | '"' :: r => (readStrAux fuel r).map (fun p => ('"' :: p.1, p.2))
      | '\\' :: r => (readStrAux fuel r).map (fun p => ('\\' :: p.1, p.2))
      | '/' :: r => (readStrAux fuel r).map (fun p => ('/' :: p.1, p.2))
      | 'b' :: r => (readStrAux fuel r).map (fun p => (Char.ofNat 8 :: p.1, p.2))
      | 'f' :: r => (readStrAux fuel r).map (fun p => (Char.ofNat 12 :: p.1, p.2))
      | 'n' :: r => (readStrAux fuel r).map (fun p => ('\n' :: p.1, p.2))
      | 'r' :: r => (readStrAux fuel r).map (fun p => ('\r' :: p.1, p.2))
      | 't' :: r => (readStrAux fuel r).map (fun p => ('\t' :: p.1, p.2))
      | 'u' :: h1 :: h2 :: h3 :: h4 :: r =>
        match hexVal h1, hexVal h2, hexVal h3, hexVal h4 with
        | some a, some b, some c2, some d =>
          let n := ((a * 16 + b) * 16 + c2) * 16 + d
          if 0xD800 ≤ n ∧ n < 0xDC00 then
            match r with
            | '\\' :: 'u' :: g1 :: g2 :: g3 :: g4 :: r2 =>
              match hexVal g1, hexVal g2, hexVal g3, hexVal g4 with
              | some a2, some b2, some c3, some d2 =>
                let m := ((a2 * 16 + b2) * 16 + c3) * 16 + d2
                if 0xDC00 ≤ m ∧ m < 0xE000 then
                  (readStrAux fuel r2).map (fun p =>
                    (Char.ofNat (0x10000 + (n - 0xD800) * 1024 + (m - 0xDC00)) :: p.1, p.2))
                else (readStrAux fuel r).map (fun p => (Char.ofNat 0xFFFD :: p.1, p.2))
              | _, _, _, _ => (readStrAux fuel r).map (fun p => (Char.ofNat 0xFFFD :: p.1, p.2))
            | _ => (readStrAux fuel r).map (fun p => (Char.ofNat 0xFFFD :: p.1, p.2))
          else if 0xDC00 ≤ n ∧ n < 0xE000 then
            (readStrAux fuel r).map (fun p => (Char.ofNat 0xFFFD :: p.1, p.2))
          else (readStrAux fuel r).map (fun p => (Char.ofNat n :: p.1, p.2))
        | _, _, _, _ => none
      | _ => none
    else if c.toNat < 32 then none
    else (readStrAux fuel cs).map (fun p => (c :: p.1, p.2))

/-- Read a run of decimal digits, accumulating their value. -/
def readDigits : List Char → Nat → Nat × List Char
  | [], acc => (acc, [])
  | c :: cs, acc =>
    if c.isDigit then readDigits cs (acc * 10 + (c.toNat - 48)) else (acc, c :: cs)

/-- After the digits of a number, `JSON.parse` would continue with a
fraction or exponent part; the model restricts JSON numbers to integers
(all numbers the store writes are integer ids), so those are rejected
here.  A leading-zero check is also omitted; the store never writes
one. -/
def numGuard (i : Int) : List Char → Option (Json × List Char)
  | [] => some (.num i, [])
  | c :: cs =>
    if c = '.' ∨ c = 'e' ∨ c = 'E' then none else some (.num i, c :: cs)

/-- The pending work of the recursive-descent parser: a value, the
remaining elements of an array, or the remaining members of an object. -/
inductive ParseTask where
  | value (cs : List Char)
  | elems (cs : List Char) (acc : List Json)
  | members (cs : List Char) (acc : List (String × Json))

/-- One recursive-descent JSON parser step (model of `JSON.parse`); the
first argument is recursion fuel.  Returns the parsed value and the
unconsumed input. -/
def parseStep : Nat → ParseTask → Option (Json × List Char)
  | 0, _ => none
  | fuel + 1, .value cs =>
    match skipWs cs with
    | [] => none
    | c :: cs1 =>
      if c = '{' then
        match skipWs cs1 with
        | '}' :: cs2 => some (.obj [], cs2)
        | cs2 => parseStep fuel (.members cs2 [])
      else if c = '[' then
        match skipWs cs1 with
        | ']' :: cs2 => some (.arr [], cs2)
        | cs2 => parseStep fuel (.elems cs2 [])
      else if c = '"' then
        match readStrAux (cs1.length + 1) cs1 with
        | some (s, rest) => some (.str ⟨s⟩, rest)
        | none => none
      else if c = 't' then
        match cs1 with
        | 'r' :: 'u' :: 'e' :: rest => some (.bool true, rest)
        | _ => none
      else if c = 'f' then
        match cs1 with
        | 'a' :: 'l' :: 's' :: 'e' :: rest => some (.bool false, rest)
        | _ => none
      else if c = 'n' then
        match cs1 with
        | 'u' :: 'l' :: 'l' :: rest => some (.null, rest)
        | _ => none
      else if c = '-' then
        match cs1 with
        | [] => none
        | d :: _ =>
          if d.isDigit then
            let p := readDigits cs1 0
            numGuard (-(p.1 : Int)) p.2
          else none
      else if c.isDigit then
        let p := readDigits (c :: cs1) 0
        numGuard (p.1 : Int) p.2
      else none
  | fuel + 1, .elems cs acc =>
    match parseStep fuel (.value cs) with
    | some (v, rest) =>
      match skipWs rest with
      | ',' :: r => parseStep fuel (.elems r (v :: acc))
      | ']' :: r => some (.arr (v :: acc).reverse, r)
      | _ => none
    | none => none
  | fuel + 1, .members cs acc =>
    match skipWs cs with
    | '"' :: cs1 =>
      match readStrAux (cs1.length + 1) cs1 with
      | some (k, rest) =>
        match skipWs rest with
        | ':' :: cs2 =>
          match parseStep fuel (.value cs2) with
          | some (v, rest2) =>
            match skipWs rest2 with
            | ',' :: r => parseStep fuel (.members r ((⟨k⟩, v) :: acc))
            | '}' :: r => some (.obj ((⟨k⟩, v) :: acc).reverse, r)
            | _ => none
          | none => none
        | _ => none
      | none => none
    | _ => none

/-- `JSON.parse`: parse one value and require the rest of the input to
be whitespace; `none` models the exception thrown on malformed input. -/
def jsonParse (s : String) : Option Json :=
  match parseStep (s.data.length + 1) (.value s.data) with
  | some (v, rest) => if skipWs rest = [] then some v else none
  | none => none

/-- `loadTodos`: `JSON.parse(localStorage.getItem(key) || '[]')` inside
`try`/`catch`.  The absent key (`null`) and the empty string are both
falsy, so they fall back to `'[]'`; a parse failure is caught and
replaced by `[]`.  The result is whatever JSON value was stored — the
source casts it to `Todo[]` without validation. -/
def loadTodos (stored : Option String) : Json :=
  let s : String :=
    match stored with
    | none => "[]"
    | some t => if t = "" then "[]" else t
  match jsonParse s with
  | some v => v
  | none => .arr []

/-- The JSON value of one todo, as the store writes it. -/
def todoJson (t : Todo) : Json :=
  .obj [("id", .num t.id), ("title", .str t.title), ("completed", .bool t.completed)]

/-- Read a parsed JSON value back as one todo record (integer `id`,
string `title`, boolean `completed`) — the shape the TypeScript
annotation `Todo[]` promises for each element. -/
def jsonToTodo : Json → Option Todo
  | .obj [("id", .num i), ("title", .str s), ("completed", .bool b)] =>
    some { id := i, title := s, completed := b }
  | _ => none

/-- Read a list of parsed JSON values back as todos. -/
def decodeList : List Json → Option (List Todo)
  | [] => some []
  | v :: vs =>
    match jsonToTodo v, decodeList vs with
    | some t, some ts => some (t :: ts)
    | _, _ => none

/-- Read a parsed JSON value back as a task list. -/
def decodeTodos : Json → Option (List Todo)
  | .arr elems => decodeList elems
  | _ => none

/-! ## JSON printer/parser lemmas -/

/-- Hex digits below 16 decode back to their value. -/
theorem hexVal_hexDigitChar : ∀ m, m < 16 → hexVal (hexDigitChar m) = some m := by
  decide

/-- The printed digit characters are digits, decode to their value, and
are none of the characters the parser dispatches on. -/
theorem digitChar_spec : ∀ m, m < 10 →
    (digitChar m).isDigit = true ∧ (digitChar m).toNat - 48 = m ∧
    jsonWs (digitChar m) = false ∧ digitChar m ≠ '{' ∧ digitChar m ≠ '[' ∧
    digitChar m ≠ '"' ∧ digitChar m ≠ 't' ∧ digitChar m ≠ 'f' ∧
    digitChar m ≠ 'n' ∧ digitChar m ≠ '-' ∧ digitChar m ≠ '.' ∧
    digitChar m ≠ 'e' ∧ digitChar m ≠ 'E' := by
  decide

/-- `readDigits` stops at a non-digit. -/
theorem readDigits_stop {c : Char} (h : c.isDigit = false) (cs : List Char) (acc : Nat) :
    readDigits (c :: cs) acc = (acc, c :: cs) := by
  simp [readDigits, h]

set_option maxHeartbeats 1600000 in
/-- Reading back an escaped string body: the reader undoes `escChars`
and stops at the closing quote, for any sufficient fuel. -/
theorem readStr_ok : ∀ (cs : List Char) (fuel : Nat) (rest : List Char),
    cs.length + 1 ≤ fuel →
    readStrAux fuel (escChars cs ++ '"' :: rest) = some (cs, rest) := by
  intro cs
  induction cs with
  | nil =>
    intro fuel rest hf
    obtain ⟨f, rfl⟩ : ∃ f, fuel = f + 1 := ⟨fuel - 1, by omega⟩
    simp [escChars, readStrAux]
  | cons c cs ih =>
    intro fuel rest hf
    obtain ⟨f, rfl⟩ : ∃ f, fuel = f + 1 := ⟨fuel - 1, by omega⟩
    have hf' : cs.length + 1 ≤ f := by
      simp only [List.length_cons] at hf; omega
    have ihf := ih f rest hf'
    rw [escChars, List.append_assoc]
    by_cases h1 : c = '"'
    · subst h1
      simp [escapeChar, readStrAux, ihf]
    · by_cases h2 : c = '\\'
      · subst h2
        simp [escapeChar, readStrAux, ihf]
      · by_cases h3 : c.toNat = 8
        · have hc : c = Char.ofNat 8 := by rw [← h3, Char.ofNat_toNat]
          rw [escapeChar, if_neg h1, if_neg h2, if_pos h3]
          simp [readStrAux, ihf, hc]
        · by_cases h4 : c.toNat = 9
          · have hc : c = '\t' := by
              have := Char.ofNat_toNat c
              rw [h4] at this
              exact this.symm
            rw [escapeChar, if_neg h1, if_neg h2, if_neg h3, if_pos h4]
            simp [readStrAux, ihf, hc]
          · by_cases h5 : c.toNat = 10
            · have hc : c = '\n' := by
                have := Char.ofNat_toNat c
                rw [h5] at this
                exact this.symm
              rw [escapeChar, if_neg h1, if_neg h2, if_neg h3, if_neg h4, if_pos h5]
              simp [readStrAux, ihf, hc]
            · by_cases h6 : c.toNat = 12
              · have hc : c = Char.ofNat 12 := by rw [← h6, Char.ofNat_toNat]
                rw [escapeChar, if_neg h1, if_neg h2, if_neg h3, if_neg h4,
                  if_neg h5, if_pos h6]
                simp [readStrAux, ihf, hc]
              · by_cases h7 : c.toNat = 13
                · have hc : c = '\r' := by
                    have := Char.ofNat_toNat c
                    rw [h7] at this
                    exact this.symm
                  rw [escapeChar, if_neg h1, if_neg h2, if_neg h3, if_neg h4,
                    if_neg h5, if_neg h6, if_pos h7]
                  simp [readStrAux, ihf, hc]
                · by_cases h8 : c.toNat < 32
                  · rw [escapeChar, if_neg h1, if_neg h2, if_neg h3, if_neg h4,
                      if_neg h5, if_neg h6, if_neg h7, if_pos h8]
                    have hdiv : c.toNat / 16 < 16 := by omega
                    have hmod : c.toNat % 16 < 16 := by omega
                    have hx := hexVal_hexDigitChar _ hdiv
                    have hy := hexVal_hexDigitChar _ hmod
                    have hn : c.toNat / 16 * 16 + c.toNat % 16 = c.toNat := by
                      omega
                    have hval : hexVal '0' = some 0 := by decide
                    have hns1 : ¬(0xD800 ≤ c.toNat ∧ c.toNat < 0xDC00) := by omega
                    have hns2 : ¬(0xDC00 ≤ c.toNat ∧ c.toNat < 0xE000) := by omega
                    have hc : Char.ofNat c.toNat = c := Char.ofNat_toNat c
                    simp [readStrAux, hval, hx, hy, hn, hns1, hns2, ihf, hc]
                  · rw [escapeChar, if_neg h1, if_neg h2, if_neg h3, if_neg h4,
                      if_neg h5, if_neg h6, if_neg h7, if_neg h8]
                    have h8' : ¬(c.toNat < 32) := h8
                    simp [readStrAux, h1, h2, h8', ihf]

/-- `skipWs` is the identity when the first character is not
whitespace. -/
theorem skipWs_cons {c : Char} (h : jsonWs c = false) (l : List Char) :
    skipWs (c :: l) = c :: l := by
  simp [skipWs, List.dropWhile_cons, h]

/-- `readDigits` consumes exactly the printed digits, shifting the
accumulator past them. -/
theorem readDigits_natDigitsAux :
    ∀ (fuel n : Nat), n < fuel → ∀ (rest : List Char) (acc : Nat),
    readDigits (natDigitsAux fuel n ++ rest) acc =
      readDigits rest (acc * 10 ^ (natDigitsAux fuel n).length + n) := by
  intro fuel
  induction fuel with
  | zero => intro n h; omega
  | succ f ih =>
    intro n h rest acc
    by_cases h10 : n < 10
    · rw [natDigitsAux, if_pos h10]
      obtain ⟨hd, hv, -⟩ := digitChar_spec n h10
      simp [readDigits, hd, hv]
    · rw [natDigitsAux, if_neg h10, List.append_assoc]
      rw [ih (n / 10) (by omega)]
      obtain ⟨hd, hv, -⟩ := digitChar_spec (n % 10) (by omega)
      simp only [List.singleton_append, readDigits, hd, if_pos, hv, if_true]
      have hlen : ((natDigitsAux f (n / 10) ++ [digitChar (n % 10)]).length)
          = (natDigitsAux f (n / 10)).length + 1 := by simp
      rw [hlen, pow_succ]
      have harith : (acc * 10 ^ (natDigitsAux f (n / 10)).length + n / 10) * 10
            + (n % 10)
          = acc * (10 ^ (natDigitsAux f (n / 10)).length * 10) + n := by
        have h2 : acc * (10 ^ (natDigitsAux f (n / 10)).length * 10)
            = acc * 10 ^ (natDigitsAux f (n / 10)).length * 10 := by ring
        rw [h2]
        set x := acc * 10 ^ (natDigitsAux f (n / 10)).length
        omega
      rw [harith]
      simp

/-- The printed digits of `n` are non-empty and start with a digit
character. -/
theorem natDigitsAux_head :
    ∀ (fuel n : Nat), n < fuel →
    ∃ d ds, natDigitsAux fuel n = d :: ds ∧ ∃ m, m < 10 ∧ d = digitChar m := by
  intro fuel
  induction fuel with
  | zero => intro n h; omega
  | succ f ih =>
    intro n h
    by_cases h10 : n < 10
    · exact ⟨digitChar n, [], by rw [natDigitsAux, if_pos h10], n, h10, rfl⟩
    · obtain ⟨d, ds, hdd, hm⟩ := ih (n / 10) (by omega)
      refine ⟨d, ds ++ [digitChar (n % 10)], ?_, hm⟩
      rw [natDigitsAux, if_neg h10, hdd]
      rfl

/-- Parsing a printed `true`/`false` literal. -/
theorem parse_bool (fuel : Nat) (b : Bool) (rest : List Char) (hf : 1 ≤ fuel) :
    parseStep fuel (.value (boolChars b ++ rest)) = some (.bool b, rest) := by
  obtain ⟨f, rfl⟩ : ∃ f, fuel = f + 1 := ⟨fuel - 1, by omega⟩
  cases b <;> rfl

/-- Every character escapes to at least one character. -/
theorem escapeChar_length (c : Char) : 1 ≤ (escapeChar c).length := by
  rw [escapeChar]
  repeat' split
  all_goals simp

/-- Escaping does not shorten a string body. -/
theorem escChars_length : ∀ cs : List Char, cs.length ≤ (escChars cs).length := by
  intro cs
  induction cs with
  | nil => simp [escChars]
  | cons c cs ih =>
    rw [escChars]
    simp only [List.length_append, List.length_cons]
    have := escapeChar_length c
    omega

/-- Parsing a printed JSON string literal. -/
theorem parse_str (fuel : Nat) (s : String) (rest : List Char) (hf : 1 ≤ fuel) :
    parseStep fuel (.value (quoteChars s ++ rest)) = some (.str s, rest) := by
  obtain ⟨f, rfl⟩ : ∃ f, fuel = f + 1 := ⟨fuel - 1, by omega⟩
  rw [quoteChars, List.cons_append, List.append_assoc]
  have hlen : s.data.length + 1 ≤ (escChars s.data ++ '"' :: rest).length + 1 := by
    have := escChars_length s.data
    simp only [List.length_append, List.length_cons]
    omega
  have hread := readStr_ok s.data ((escChars s.data ++ '"' :: rest).length + 1) rest hlen
  simp only [List.length_append, List.length_cons] at hread
  simp only [parseStep, skipWs_cons (show jsonWs '"' = false by decide),
    List.singleton_append, List.length_append, List.length_cons]
  simp [hread]

/-- Parsing a printed integer that is followed by a character that is
neither a digit nor a fraction/exponent opener. -/
theorem parse_num (fuel : Nat) (i : Int) (c : Char) (rest : List Char)
    (hf : 1 ≤ fuel) (hc1 : c.isDigit = false) (hc2 : c ≠ '.') (hc3 : c ≠ 'e')
    (hc4 : c ≠ 'E') :
    parseStep fuel (.value (intChars i ++ c :: rest)) = some (.num i, c :: rest) := by
  obtain ⟨f, rfl⟩ : ∃ f, fuel = f + 1 := ⟨fuel - 1, by omega⟩
  obtain ⟨d, ds, hdd, m, hm, rfl⟩ := natDigitsAux_head (i.natAbs + 1) i.natAbs (by omega)
  obtain ⟨hdig, hval, hws, hlb, hlbr, hq, ht, hfa, hn, hmi, hdot, he, hE⟩ :=
    digitChar_spec m hm
  have hread : readDigits ((natDigitsAux (i.natAbs + 1) i.natAbs) ++ c :: rest) 0
      = (i.natAbs, c :: rest) := by
    rw [readDigits_natDigitsAux (i.natAbs + 1) i.natAbs (by omega)]
    rw [readDigits_stop hc1]
    simp
  have hguard : ∀ j : Int, numGuard j (c :: rest) = some (.num j, c :: rest) := by
    intro j
    rw [numGuard, if_neg]
    push_neg
    exact ⟨hc2, hc3, hc4⟩
  by_cases hneg : i < 0
  · rw [intChars, if_pos hneg, natDigits, List.cons_append]
    rw [hdd] at hread ⊢
    simp only [List.cons_append] at hread ⊢
    simp only [parseStep, skipWs_cons (show jsonWs '-' = false by decide)]
    simp [hdig, hread, hguard]
    rw [abs_of_neg hneg, neg_neg]
  · rw [intChars, if_neg hneg, natDigits]
    rw [hdd] at hread ⊢
    simp only [List.cons_append] at hread ⊢
    simp only [parseStep, skipWs_cons hws]
    simp [hlb, hlbr, hq, ht, hfa, hn, hmi, hdig, hread, hguard]
    omega

/-- Entering an object whose first key starts right after the brace. -/
theorem parseStep_value_obj (f : Nat) (X : List Char) :
    parseStep (f + 1) (.value ('{' :: '"' :: X)) =
      parseStep f (.members ('"' :: X) []) := rfl

/-- An empty array literal. -/
theorem parseStep_value_arrEmpty (f : Nat) (rest : List Char) :
    parseStep (f + 1) (.value ('[' :: ']' :: rest)) = some (.arr [], rest) := rfl

/-- Entering a non-empty array whose first element is an object. -/
theorem parseStep_value_arrCons (f : Nat) (X : List Char) :
    parseStep (f + 1) (.value ('[' :: '{' :: X)) =
      parseStep f (.elems ('{' :: X) []) := rfl

/-- One object member followed by a comma: read the key, parse the
value, continue with the remaining members. -/
theorem members_step_continue {f : Nat} {cs1 vrest r k : List Char} {v : Json}
    {acc : List (String × Json)}
    (hk : readStrAux (cs1.length + 1) cs1 = some (k, ':' :: vrest))
    (hv : parseStep f (.value vrest) = some (v, ',' :: '"' :: r)) :
    parseStep (f + 1) (.members ('"' :: cs1) acc) =
      parseStep f (.members ('"' :: r) ((⟨k⟩, v) :: acc)) := by
  simp only [parseStep, skipWs_cons (show jsonWs '"' = false by decide), hk,
    skipWs_cons (show jsonWs ':' = false by decide), hv,
    skipWs_cons (show jsonWs ',' = false by decide)]

/-- The last object member: read the key, parse the value, close the
object at the brace. -/
theorem members_step_finish {f : Nat} {cs1 vrest r k : List Char} {v : Json}
    {acc : List (String × Json)}
    (hk : readStrAux (cs1.length + 1) cs1 = some (k, ':' :: vrest))
    (hv : parseStep f (.value vrest) = some (v, '}' :: r)) :
    parseStep (f + 1) (.members ('"' :: cs1) acc) =
      some (.obj (((⟨k⟩ : String), v) :: acc).reverse, r) := by
  simp only [parseStep, skipWs_cons (show jsonWs '"' = false by decide), hk,
    skipWs_cons (show jsonWs ':' = false by decide), hv,
    skipWs_cons (show jsonWs '}' = false by decide)]

/-- One array element followed by a comma. -/
theorem elems_step_continue {f : Nat} {cs rest : List Char} {v : Json}
    {acc : List Json}
    (hv : parseStep f (.value cs) = some (v, ',' :: rest)) :
    parseStep (f + 1) (.elems cs acc) = parseStep f (.elems rest (v :: acc)) := by
  simp only [parseStep, hv, skipWs_cons (show jsonWs ',' = false by decide)]

/-- The last array element, closing at the bracket. -/
theorem elems_step_finish {f : Nat} {cs rest : List Char} {v : Json}
    {acc : List Json}
    (hv : parseStep f (.value cs) = some (v, ']' :: rest)) :
    parseStep (f + 1) (.elems cs acc) = some (.arr (v :: acc).reverse, rest) := by
  simp only [parseStep, hv, skipWs_cons (show jsonWs ']' = false by decide)]

/-- Reading back the printed key `id`. -/
theorem readKey_id (tail : List Char) :
    readStrAux (('i' :: 'd' :: '"' :: tail).length + 1) ('i' :: 'd' :: '"' :: tail)
      = some (['i', 'd'], tail) := by
  have h := readStr_ok ['i', 'd'] (('i' :: 'd' :: '"' :: tail).length + 1) tail
    (by simp)
  have he : escChars ['i', 'd'] ++ '"' :: tail = 'i' :: 'd' :: '"' :: tail := rfl
  rw [he] at h
  exact h

/-- Reading back the printed key `title`. -/
theorem readKey_title (tail : List Char) :
    readStrAux (('t' :: 'i' :: 't' :: 'l' :: 'e' :: '"' :: tail).length + 1)
        ('t' :: 'i' :: 't' :: 'l' :: 'e' :: '"' :: tail)
      = some (['t', 'i', 't', 'l', 'e'], tail) := by
  have h := readStr_ok ['t', 'i', 't', 'l', 'e']
    (('t' :: 'i' :: 't' :: 'l' :: 'e' :: '"' :: tail).length + 1) tail (by simp)
  have he : escChars ['t', 'i', 't', 'l', 'e'] ++ '"' :: tail
      = 't' :: 'i' :: 't' :: 'l' :: 'e' :: '"' :: tail := rfl
  rw [he] at h
  exact h

/-- Reading back the printed key `completed`. -/
theorem readKey_completed (tail : List Char) :
    readStrAux
        (('c' :: 'o' :: 'm' :: 'p' :: 'l' :: 'e' :: 't' :: 'e' :: 'd' :: '"' :: tail).length + 1)
        ('c' :: 'o' :: 'm' :: 'p' :: 'l' :: 'e' :: 't' :: 'e' :: 'd' :: '"' :: tail)
      = some (['c', 'o', 'm', 'p', 'l', 'e', 't', 'e', 'd'], tail) := by
  have h := readStr_ok ['c', 'o', 'm', 'p', 'l', 'e', 't', 'e', 'd']
    (('c' :: 'o' :: 'm' :: 'p' :: 'l' :: 'e' :: 't' :: 'e' :: 'd' :: '"' :: tail).length + 1)
    tail (by simp)
  have he : escChars ['c', 'o', 'm', 'p', 'l', 'e', 't', 'e', 'd'] ++ '"' :: tail
      = 'c' :: 'o' :: 'm' :: 'p' :: 'l' :: 'e' :: 't' :: 'e' :: 'd' :: '"' :: tail := rfl
  rw [he] at h
  exact h

/-- Parsing one printed todo object yields its JSON value. -/
theorem parse_todo (fuel : Nat) (t : Todo) (rest : List Char) (hf : 5 ≤ fuel) :
    parseStep fuel (.value (encodeTodoChars t ++ rest)) = some (todoJson t, rest) := by
  obtain ⟨f, rfl⟩ : ∃ f, fuel = f + 1 + 1 + 1 + 1 := ⟨fuel - 4, by omega⟩
  rw [encodeTodoChars]
  simp only [List.cons_append, List.append_assoc, List.nil_append]
  rw [parseStep_value_obj]
  rw [members_step_continue (readKey_id _)
    (parse_num (f + 1 + 1) t.id ',' _ (by omega) (by decide) (by decide) (by decide)
      (by decide))]
  rw [members_step_continue (readKey_title _)
    (parse_str (f + 1) t.title _ (by omega))]
  rw [members_step_finish (readKey_completed _)
    (parse_bool f t.completed _ (by omega))]
  rfl

/-- Parsing the printed elements of a non-empty todo list. -/
theorem parse_elems :
    ∀ (L : List Todo) (fuel : Nat) (acc : List Json) (rest : List Char),
    L ≠ [] → L.length + 5 ≤ fuel →
    parseStep fuel (.elems (encodeElemsChars L ++ ']' :: rest) acc) =
      some (.arr (acc.reverse ++ L.map todoJson), rest) := by
  intro L
  induction L with
  | nil => intro fuel acc rest h; exact absurd rfl h
  | cons t ts ih =>
    intro fuel acc rest _ hfuel
    obtain ⟨f, rfl⟩ : ∃ f, fuel = f + 1 := ⟨fuel - 1, by omega⟩
    cases ts with
    | nil =>
      simp only [encodeElemsChars]
      rw [elems_step_finish (parse_todo f t (']' :: rest) (by simp at hfuel; omega))]
      simp
    | cons t2 ts2 =>
      simp only [encodeElemsChars, List.append_assoc, List.cons_append]
      rw [elems_step_continue (parse_todo f t _ (by simp at hfuel ⊢; omega))]
      rw [ih f (todoJson t :: acc) rest (by simp) (by simp at hfuel ⊢; omega)]
      simp

/-- Parsing the whole printed array. -/
theorem parse_arr (L : List Todo) (fuel : Nat) (rest : List Char)
    (hfuel : L.length + 6 ≤ fuel) :
    parseStep fuel (.value (saveChars L ++ rest)) =
      some (.arr (L.map todoJson), rest) := by
  obtain ⟨f, rfl⟩ : ∃ f, fuel = f + 1 := ⟨fuel - 1, by omega⟩
  cases L with
  | nil =>
    rw [saveChars]
    simp only [encodeElemsChars, List.nil_append, List.cons_append,
      List.singleton_append]
    exact parseStep_value_arrEmpty f rest
  | cons t ts =>
    obtain ⟨X, hX⟩ : ∃ X, encodeElemsChars (t :: ts) = '{' :: X := by
      cases ts <;> exact ⟨_, rfl⟩
    rw [saveChars]
    simp only [List.cons_append, List.append_assoc, List.singleton_append]
    simp only [List.nil_append]
    rw [hX, List.cons_append, parseStep_value_arrCons, ← List.cons_append, ← hX]
    rw [parse_elems (t :: ts) f [] rest (by simp) (by simp at hfuel ⊢; omega)]
    simp

/-- Each printed todo object is at least six characters long. -/
theorem encodeTodoChars_length (t : Todo) : 6 ≤ (encodeTodoChars t).length := by
  rw [encodeTodoChars]
  simp only [List.length_cons, List.length_append, List.length_singleton]
  omega

/-- The printed elements of a non-empty list are long enough to cover
the parser fuel the elements need. -/
theorem encodeElemsChars_length :
    ∀ L : List Todo, L ≠ [] → L.length + 3 ≤ (encodeElemsChars L).length := by
  intro L
  induction L with
  | nil => intro h; exact absurd rfl h
  | cons t ts ih =>
    intro _
    cases ts with
    | nil =>
      simp only [encodeElemsChars, List.length_cons, List.length_nil]
      have := encodeTodoChars_length t
      omega
    | cons t2 ts2 =>
      simp only [encodeElemsChars, List.length_append, List.length_cons] at *
      have h1 := encodeTodoChars_length t
      have h2 := ih (by simp)
      omega

/-- The save/parse round trip at the JSON level: parsing the persisted
string recovers exactly the array of todo objects. -/
theorem jsonParse_saveTodos (L : List Todo) :
    jsonParse (saveTodos L) = some (.arr (L.map todoJson)) := by
  cases L with
  | nil => rfl
  | cons t ts =>
    rw [jsonParse]
    have hdata : (saveTodos (t :: ts)).data = saveChars (t :: ts) := rfl
    rw [hdata]
    have hlen : (t :: ts).length + 6 ≤ (saveChars (t :: ts)).length + 1 := by
      have h1 := encodeElemsChars_length (t :: ts) (by simp)
      rw [saveChars]
      simp only [List.length_cons, List.length_append, List.length_singleton] at *
      omega
    have harr := parse_arr (t :: ts) ((saveChars (t :: ts)).length + 1) [] hlen
    rw [List.append_nil] at harr
    rw [harr]
    simp [skipWs]

/-- Decoding inverts the printed todo object. -/
theorem jsonToTodo_todoJson (t : Todo) : jsonToTodo (todoJson t) = some t := rfl

/-- Decoding inverts the printed todo array. -/
theorem decodeList_map (L : List Todo) : decodeList (L.map todoJson) = some L := by
  induction L with
  | nil => rfl
  | cons t ts ih => simp [decodeList, jsonToTodo_todoJson, ih]

/-! ## Trimming lemmas -/

/-- The head surviving a `dropWhile` fails the predicate. -/
theorem dropWhile_head {p : Char → Bool} :
    ∀ {l c cs}, List.dropWhile p l = c :: cs → p c = false := by
  intro l
  induction l with
  | nil => intro c cs h; simp [List.dropWhile] at h
  | cons a as ih =>
    intro c cs h
    rw [List.dropWhile_cons] at h
    by_cases ha : p a = true
    · rw [if_pos ha] at h; exact ih h
    · rw [if_neg ha] at h
      cases h
      simpa using ha

/-- `trimChars` is Mathlib's right-trim after left-trim. -/
theorem trimChars_eq (l : List Char) :
    trimChars l = List.rdropWhile jsWhitespace (l.dropWhile jsWhitespace) := rfl

/-- Trimming a character list is idempotent. -/
theorem trimChars_idem (l : List Char) : trimChars (trimChars l) = trimChars l := by
  rw [trimChars_eq, trimChars_eq]
  set p := jsWhitespace with hp
  set A := l.dropWhile p with hA
  have hAA : A.dropWhile p = A := by rw [hA]; exact List.dropWhile_idempotent p l
  set B := List.rdropWhile p A with hB
  have hBA : B <+: A := by rw [hB]; exact List.rdropWhile_prefix p A
  have hBB : B.dropWhile p = B := by
    rcases hBA with ⟨tail, htail⟩
    cases hBnil : B with
    | nil => simp
    | cons c cs =>
      have hArep : A = c :: (cs ++ tail) := by rw [← htail, hBnil]; simp
      have hc : p c = false := dropWhile_head (by rw [hAA, hArep])
      rw [List.dropWhile_cons, hc]
      simp
  rw [hBB, hB]
  exact List.rdropWhile_idempotent p A

/-- JavaScript's `trim` is idempotent. -/
theorem jsTrim_idem (s : String) : jsTrim (jsTrim s) = jsTrim s :=
  congrArg String.mk (trimChars_idem s.data)

/-! ## List-operation lemmas -/

/-- Mapping a function that fixes a projection leaves that projection of
the list unchanged. -/
theorem map_map_proj {β : Type} (f : Todo → Todo) (g : Todo → β)
    (hf : ∀ t, g (f t) = g t) (l : List Todo) :
    (l.map f).map g = l.map g := by
  rw [List.map_map]
  exact List.map_congr_left (fun t _ => hf t)

/-- Structure of a whole sequence of adds: the adds with non-empty
trimmed text are appended in call order, trimmed, incomplete. -/
theorem addAll_structure (l : List Todo) (ops : List (Int × String)) :
    addAll l ops = l ++ (ops.filter fun p => jsTrim p.2 ≠ "").map
      (fun p => { id := p.1, title := jsTrim p.2, completed := false }) := by
  induction ops generalizing l with
  | nil => simp [addAll]
  | cons op ops ih =>
    simp only [addAll, List.foldl_cons] at *
    rw [ih]
    by_cases h : jsTrim op.2 = "" <;>
      simp [handleAddTodo, h, List.filter_cons]

/-! ## Claim theorems -/

/-- **C3**: `Add` trims its input; an empty trimmed result leaves the
list unchanged, otherwise exactly one task with the trimmed title and
`completed = false` is appended; over any sequence of adds the result is
the starting list followed by one task per add with non-empty trimmed
text, in call order, so the final length is the starting length plus the
number of such adds. -/
theorem claim_C3 (now : Int) (l : List Todo) (input : String)
    (ops : List (Int × String)) :
    handleAddTodo now l input =
      (if jsTrim input = "" then l
       else l ++ [{ id := now, title := jsTrim input, completed := false }]) ∧
    addAll l ops = l ++ (ops.filter fun p => jsTrim p.2 ≠ "").map
      (fun p => { id := p.1, title := jsTrim p.2, completed := false }) ∧
    (addAll l ops).length =
      l.length + (ops.filter fun p => jsTrim p.2 ≠ "").length := by
  refine ⟨rfl, addAll_structure l ops, ?_⟩
  rw [addAll_structure l ops]
  simp

/-- **C4 counterexample**: two adds in the same millisecond (`Date.now()`
returning 5 twice) produce two distinct tasks with the same id, so id
uniqueness does not hold unconditionally. -/
theorem claim_C4_cex :
    ¬ ((addAll [] [(5, "a"), (5, "b")]).map Todo.id).Nodup := by decide

/-- **C4 (amended)**: ids are unique provided the `Date.now()` values
supplied to the adds are pairwise distinct and distinct from the ids
already in the list — e.g. under a strictly increasing clock. -/
theorem claim_C4 (l : List Todo) (ops : List (Int × String))
    (hl : (l.map Todo.id).Nodup)
    (hops : (ops.map Prod.fst).Nodup)
    (hfresh : ∀ p ∈ ops, p.1 ∉ l.map Todo.id) :
    ((addAll l ops).map Todo.id).Nodup := by
  rw [addAll_structure l ops, List.map_append, List.map_map]
  have hids : ((ops.filter fun p => jsTrim p.2 ≠ "").map
      (Todo.id ∘ fun p => ({ id := p.1, title := jsTrim p.2, completed := false } : Todo)))
      = (ops.filter fun p => jsTrim p.2 ≠ "").map Prod.fst := rfl
  rw [hids]
  have hsub : List.Sublist ((ops.filter fun p => jsTrim p.2 ≠ "").map Prod.fst)
      (ops.map Prod.fst) :=
    List.Sublist.map Prod.fst (List.filter_sublist ops)
  refine List.Nodup.append hl (List.Sublist.nodup hsub hops) ?_
  intro a ha hb
  obtain ⟨p, hp, rfl⟩ := List.mem_map.mp hb
  exact hfresh p (List.mem_of_mem_filter hp) ha

/-- **C4 witness**: the amended theorem applied to two adds with
distinct timestamps starting from the empty list. -/
theorem claim_C4_witness :
    ((addAll [] [(1, "a"), (2, "b")]).map Todo.id).Nodup :=
  claim_C4 [] [(1, "a"), (2, "b")] (by decide) (by decide) (by decide)

/-- **C5**: `CommitEdit` trims the draft; a non-empty trimmed draft
retitles the matching task, an empty one has exactly the effect of
`Delete(id)` on the task list; edit mode is exited unconditionally
(editing id and draft cleared). -/
theorem claim_C5 (s : StoreState) (id : Int) :
    (handleEditSubmit s id).todos = commitTodos s.todos id s.editValue ∧
    (jsTrim s.editValue = "" →
      (handleEditSubmit s id).todos = handleDelete s.todos id) ∧
    (jsTrim s.editValue ≠ "" →
      (handleEditSubmit s id).todos = s.todos.map
        (fun t => if t.id = id then { t with title := jsTrim s.editValue } else t)) ∧
    (handleEditSubmit s id).editingId = none ∧
    (handleEditSubmit s id).editValue = "" := by
  refine ⟨rfl, ?_, ?_, rfl, rfl⟩
  · intro h; simp [handleEditSubmit, h]
  · intro h; simp [handleEditSubmit, h]

/-- **C5 witness**: committing an all-whitespace draft for id 1 deletes
that task and exits edit mode. -/
theorem claim_C5_witness :
    (handleEditSubmit ⟨[⟨1, "a", false⟩, ⟨2, "b", true⟩], some 1, "   "⟩ 1).todos
        = handleDelete [⟨1, "a", false⟩, ⟨2, "b", true⟩] 1 ∧
    (handleEditSubmit ⟨[⟨1, "a", false⟩, ⟨2, "b", true⟩], some 1, "   "⟩ 1).editingId
        = none := by
  have h := claim_C5 ⟨[⟨1, "a", false⟩, ⟨2, "b", true⟩], some 1, "   "⟩ 1
  exact ⟨h.2.1 (by decide), h.2.2.2.1⟩

/-- **C6**: `Toggle` flips `completed` on the matching task, is a silent
no-op when no task matches, and applying it twice restores the list. -/
theorem claim_C6 (l : List Todo) (id : Int) :
    handleToggle (handleToggle l id) id = l ∧
    ((∀ t ∈ l, t.id ≠ id) → handleToggle l id = l) := by
  constructor
  · induction l with
    | nil => rfl
    | cons t ts ih =>
      obtain ⟨i, s, b⟩ := t
      simp only [handleToggle, List.map_cons, List.map_map] at *
      by_cases h : i = id <;> simp_all [handleToggle]
  · intro h
    rw [handleToggle]
    have : ∀ t ∈ l, (if t.id = id then { t with completed := !t.completed } else t) = t :=
      fun t ht => if_neg (h t ht)
    rw [List.map_congr_left this]
    simp

/-- **C6 witness**: double toggle on a concrete list restores it, and a
toggle with an unmatched id is a no-op. -/
theorem claim_C6_witness :
    handleToggle (handleToggle [⟨1, "a", false⟩] 1) 1 = [⟨1, "a", false⟩] ∧
    handleToggle [⟨1, "a", false⟩] 7 = [⟨1, "a", false⟩] :=
  ⟨(claim_C6 [⟨1, "a", false⟩] 1).1,
   (claim_C6 [⟨1, "a", false⟩] 7).2 (by decide)⟩

/-- **C7**: in every state reachable by the store's operations no task's
title is empty or whitespace-only (write-through persistence stores
exactly these reachable lists): `Add` rejects empty trimmed input and an
edit whose trimmed draft is empty deletes the task instead. -/
theorem claim_C7 (l : List Todo) (h : Reached l) :
    ∀ t, t ∈ l → t.title ≠ "" ∧ jsTrim t.title ≠ "" := by
  have key : ∀ t, t ∈ l → jsTrim t.title ≠ "" := by
    induction h with
    | init => intro t ht; simp at ht
    | add now input h ih =>
      intro t ht
      rw [handleAddTodo] at ht
      by_cases hv : jsTrim input = ""
      · rw [if_pos hv] at ht; exact ih t ht
      · rw [if_neg hv] at ht
        rcases List.mem_append.mp ht with hmem | hmem
        · exact ih t hmem
        · have : t = { id := now, title := jsTrim input, completed := false } := by
            simpa using hmem
          rw [this]
          simpa [jsTrim_idem input] using hv
    | toggle id h ih =>
      intro t ht
      obtain ⟨u, hu, rfl⟩ := List.mem_map.mp ht
      by_cases hid : u.id = id
      · simpa [hid] using ih u hu
      · simpa [hid] using ih u hu
    | del id h ih =>
      intro t ht
      exact ih t (List.mem_of_mem_filter ht)
    | commit id draft h ih =>
      intro t ht
      rw [commitTodos] at ht
      by_cases hv : jsTrim draft = ""
      · rw [if_pos hv] at ht
        exact ih t (List.mem_of_mem_filter ht)
      · rw [if_neg hv] at ht
        obtain ⟨u, hu, rfl⟩ := List.mem_map.mp ht
        by_cases hid : u.id = id
        · simpa [hid, jsTrim_idem draft] using hv
        · simpa [hid] using ih u hu
    | clear h ih =>
      intro t ht
      exact ih t (List.mem_of_mem_filter ht)
    | mark v h ih =>
      intro t ht
      obtain ⟨u, hu, rfl⟩ := List.mem_map.mp ht
      simpa using ih u hu
  intro t ht
  refine ⟨?_, key t ht⟩
  intro hempty
  exact key t ht (by rw [hempty]; rfl)

/-- **C7 witness**: the invariant at the concrete reachable list built
by one add of `" hi "`, whose stored title is the trimmed `"hi"`. -/
theorem claim_C7_witness :
    (⟨1, "hi", false⟩ : Todo).title ≠ "" ∧
    jsTrim (⟨1, "hi", false⟩ : Todo).title ≠ "" :=
  claim_C7 (handleAddTodo 1 [] " hi ") (Reached.add 1 " hi " Reached.init)
    ⟨1, "hi", false⟩ (by decide)

/-- **C8**: the derived view: `filteredTodos` keeps exactly the tasks
passing the active filter's predicate, in backing-list order (it is a
sublist); the two counts partition the list length; and the concrete
scenario — start empty, add "buy milk" (at time 1), add "feed cat" (at
time 2), toggle the first task's id, filter `Active` — yields exactly
the second task, one active and one completed. -/
theorem claim_C8 (f : Filter) (l : List Todo) :
    List.Sublist (filteredTodos f l) l ∧
    (∀ t, t ∈ filteredTodos f l ↔ t ∈ l ∧
      (f = Filter.All ∨ (f = Filter.Active ∧ t.completed = false) ∨
       (f = Filter.Completed ∧ t.completed = true))) ∧
    activeCount l + completedCount l = l.length ∧
    (filteredTodos Filter.Active
        (handleToggle (addAll [] [(1, "buy milk"), (2, "feed cat")]) 1)
      = [{ id := 2, title := "feed cat", completed := false }] ∧
     activeCount (handleToggle (addAll [] [(1, "buy milk"), (2, "feed cat")]) 1) = 1 ∧
     completedCount (handleToggle (addAll [] [(1, "buy milk"), (2, "feed cat")]) 1) = 1) := by
  refine ⟨List.filter_sublist l, ?_, ?_, by decide, by decide, by decide⟩
  · intro t
    cases f with
    | All => simp [filteredTodos, List.mem_filter]
    | Active => simp [filteredTodos, List.mem_filter]
    | Completed => simp [filteredTodos, List.mem_filter]
  · induction l with
    | nil => rfl
    | cons t ts ih =>
      cases hb : t.completed <;>
        simp_all [activeCount, completedCount, List.filter_cons, hb] <;> omega

/-- **C9 counterexample**: on an empty list the source renders no `main`
section at all (guard `todos.length > 0`), so the mark-all control does
not "render as checked" there — it is absent — even though
`activeCount` is 0. -/
theorem claim_C9_cex :
    renderedToggleAll [] = none ∧ renderedToggleAll [] ≠ some true ∧
    activeCount [] = 0 := by decide

/-- **C9 (amended)**: `SetAllCompleted(v)` sets `completed = v` on every
task while leaving ids, titles, order and length unchanged; after
`SetAllCompleted(true)` the active count is 0 and after
`SetAllCompleted(false)` the completed count is 0; the mark-all control
is rendered only for a non-empty list, and then shows checked exactly
when the active count is 0 (so an all-completed non-empty list renders
checked; an empty list renders no control). -/
theorem claim_C9 (l : List Todo) (v : Bool) :
    activeCount (handleMarkAll l true) = 0 ∧
    completedCount (handleMarkAll l false) = 0 ∧
    (handleMarkAll l v).map Todo.id = l.map Todo.id ∧
    (handleMarkAll l v).map Todo.title = l.map Todo.title ∧
    (∀ t ∈ handleMarkAll l v, t.completed = v) ∧
    (l ≠ [] → (renderedToggleAll l = some true ↔ activeCount l = 0)) ∧
    renderedToggleAll [] = none := by
  refine ⟨?_, ?_, ?_, ?_, ?_, ?_, rfl⟩
  · simp [activeCount, handleMarkAll, List.filter_map]
  · simp [completedCount, handleMarkAll, List.filter_map]
  · exact map_map_proj (fun t => { t with completed := v }) Todo.id (fun t => rfl) l
  · exact map_map_proj (fun t => { t with completed := v }) Todo.title (fun t => rfl) l
  · intro t ht
    obtain ⟨u, _, rfl⟩ := List.mem_map.mp ht
    rfl
  · intro hne
    rw [renderedToggleAll, if_pos (by simpa [List.length_pos] using hne)]
    constructor
    · intro h
      simpa using Option.some.inj h
    · intro h
      simp [h]

/-- **C9 witness**: the amended theorem at a concrete one-element list:
marking all complete empties the active count and the rendered control
of the marked list shows checked. -/
theorem claim_C9_witness :
    activeCount (handleMarkAll [⟨1, "a", false⟩] true) = 0 ∧
    (renderedToggleAll [⟨1, "a", true⟩] = some true ↔
      activeCount [⟨1, "a", true⟩] = 0) :=
  ⟨(claim_C9 [⟨1, "a", false⟩] true).1,
   (claim_C9 [⟨1, "a", true⟩] true).2.2.2.2.2.1 (by decide)⟩

/-- **C10** (frame property of `Toggle`): length and order are
unchanged, every task keeps its id and title, and every task whose id
differs from the toggled one is entirely unchanged (element-wise, at its
original position). -/
theorem claim_C10 (l : List Todo) (id : Int) :
    (handleToggle l id).length = l.length ∧
    (handleToggle l id).map Todo.id = l.map Todo.id ∧
    (handleToggle l id).map Todo.title = l.map Todo.title ∧
    (∀ (i : Nat) (t : Todo),
      l[i]? = some t → t.id ≠ id → (handleToggle l id)[i]? = some t) := by
  refine ⟨by simp [handleToggle], ?_, ?_, ?_⟩
  · exact map_map_proj _ _ (fun t => by by_cases h : t.id = id <;> simp [h]) l
  · exact map_map_proj _ _ (fun t => by by_cases h : t.id = id <;> simp [h]) l
  · intro i t hli hne
    rw [handleToggle]
    simp only [List.getElem?_map, hli, Option.map_some']
    rw [if_neg hne]

/-- **C10 witness**: toggling id 1 leaves the task with id 2 unchanged
at its position. -/
theorem claim_C10_witness :
    (handleToggle [⟨1, "a", false⟩, ⟨2, "b", false⟩] 1)[1]? =
      some ⟨2, "b", false⟩ :=
  (claim_C10 [⟨1, "a", false⟩, ⟨2, "b", false⟩] 1).2.2.2 1
    ⟨2, "b", false⟩ (by decide) (by decide)

/-- **C1**: the persist-then-load round trip: for every well-formed task
list `L` (integer ids, string titles, boolean flags — the `Todo` type),
parsing the string `saveTodos` writes and reading it back as a task list
reproduces `L` exactly — ids, titles and completed flags, element for
element and in order. -/
theorem claim_C1 (L : List Todo) :
    decodeTodos (loadTodos (some (saveTodos L))) = some L := by
  have hne : saveTodos L ≠ "" := by
    intro h
    have hdata : saveChars L = [] := congrArg String.data h
    rw [saveChars] at hdata
    simp at hdata
  rw [loadTodos]
  simp only [if_neg hne, jsonParse_saveTodos]
  simp [decodeTodos, decodeList_map]

/-- **C2 counterexample**: the stored string `"{}"` is valid JSON, so
`JSON.parse` succeeds and `loadTodos` returns the parsed object — a
non-list value — rather than an empty task list. -/
theorem claim_C2_cex :
    loadTodos (some "\x7b\x7d") = Json.obj [] ∧
    (loadTodos (some "\x7b\x7d")).isArr = false :=
  ⟨rfl, rfl⟩

/-- **C2 (amended)**: `loadTodos` never propagates a parse failure: on
an absent key, an empty stored string, or any payload the JSON parser
rejects, it returns the empty array; but a payload that parses as a
non-array JSON value is returned as parsed, not coerced to an empty
list. -/
theorem claim_C2 :
    loadTodos none = Json.arr [] ∧
    loadTodos (some "") = Json.arr [] ∧
    (∀ s : String, s ≠ "" → jsonParse s = none → loadTodos (some s) = Json.arr []) ∧
    (∀ (s : String) (v : Json), s ≠ "" → jsonParse s = some v →
      loadTodos (some s) = v) := by
  refine ⟨rfl, rfl, ?_, ?_⟩
  · intro s hs hp
    rw [loadTodos]
    simp only [if_neg hs, hp]
  · intro s v hs hp
    rw [loadTodos]
    simp only [if_neg hs, hp]

/-- **C2 witness**: the truncated payload `"{"` makes the parser fail,
and `loadTodos` falls back to the empty array. -/
theorem claim_C2_witness : loadTodos (some "\x7b") = Json.arr [] :=
  claim_C2.2.2.1 "\x7b" (by decide) rfl

end TodoApp
